import Mathlib

/-!
Verification of the smart form detector (`py_test/auto_dectect.py`,
class `SmartFormDetector`).

The development shallowly embeds the detector: a Word table is a list of
rows, each row a list of raw cell texts; the regular expressions of
`field_patterns` use only literal characters, `\s*` and `-?` (in
`E-?mail`), so they are embedded as token lists with an executable
matcher mirroring `re.search(pattern, text, re.IGNORECASE)`.
-/
/-- Characters treated as whitespace by Python's `str.strip()` / `\s`
(ASCII subset; the document texts relevant here use no exotic spaces). -/
def isPySpace (c : Char) : Bool :=
  c = ' ' || c = '\t' || c = '\n' || c = '\r' || c = '\x0b' || c = '\x0c'

/-- Python `str.strip()`: drop whitespace from both ends. -/
def pyStrip (s : String) : String :=
  ⟨((s.data.dropWhile isPySpace).reverse.dropWhile isPySpace).reverse⟩

/-- Case-insensitive character comparison (`re.IGNORECASE`; only the
ASCII letters of `E-?mail` are affected, Chinese characters compare
exactly). -/
def charEqCI (a b : Char) : Bool := a.toLower = b.toLower

/-- Tokens of the regex subset used by `field_patterns`: a literal
character, `\s*`, or an optional character (`-?`). -/
inductive RTok where
  | lit : Char → RTok
  | ws : RTok
  | opt : Char → RTok
deriving DecidableEq

/-- A pattern is a token sequence. -/
abbrev Pat := List RTok

/-- Does `f` hold of the list after removing some (possibly zero) leading
whitespace characters?  Used to interpret `\s*`. -/
def anySuffixAfterSpaces (f : List Char → Bool) : List Char → Bool
  | [] => f []
  | d :: ds => f (d :: ds) || (isPySpace d && anySuffixAfterSpaces f ds)

/-- Match a pattern against the beginning of a character list. -/
def matchHere : Pat → List Char → Bool
  | [], _ => true
  | .lit _ :: _, [] => false
  | .lit c :: ps, d :: ds => charEqCI c d && matchHere ps ds
  | .ws :: ps, ds => anySuffixAfterSpaces (matchHere ps) ds
  | .opt _ :: ps, [] => matchHere ps []
  | .opt c :: ps, d :: ds =>
      matchHere ps (d :: ds) || (charEqCI c d && matchHere ps ds)

/-- Try to match at every start position (`re.search` semantics). -/
def searchAux (p : Pat) : List Char → Bool
  | [] => matchHere p []
  | d :: ds => matchHere p (d :: ds) || searchAux p ds

/-- `re.search(pattern, text, re.IGNORECASE) is not None`. -/
def reSearch (p : Pat) (s : String) : Bool := searchAux p s.data

/-- A pattern consisting of literal characters only. -/
def litP (s : String) : Pat := s.data.map RTok.lit

/-- A pattern of the shape `a\s*b` (two literal runs split by `\s*`). -/
def wsP (a b : String) : Pat := litP a ++ RTok.ws :: litP b

/-- The pattern `E-?mail`. -/
def emailPat : Pat := RTok.lit 'E' :: RTok.opt '-' :: litP "mail"

/-- The field-pattern dictionary of `SmartFormDetector.__init__`
(`self.field_patterns`), in Python dict insertion order. -/
def field_patterns : List (String × List Pat) := [
  ("name", [wsP "姓" "名", litP "申请人", litP "负责人", litP "姓名：", litP "名字"]),
  ("gender", [wsP "性" "别", litP "性别："]),
  ("birth_date", [litP "出生年月", litP "出生日期", litP "生日", litP "出生时间"]),
  ("phone", [wsP "电" "话", litP "联系电话", litP "手机", litP "联系方式", litP "电话号码"]),
  ("email", [wsP "邮" "箱", litP "电子邮件", emailPat, litP "电邮"]),
  ("ethnicity", [wsP "民" "族", litP "民族："]),
  ("nationality", [wsP "国" "籍", litP "国籍："]),
  ("id_number", [litP "身份证", litP "证件号", litP "身份证号"]),
  ("address", [wsP "地" "址", litP "住址", litP "通讯地址", litP "联系地址"]),
  ("title", [wsP "职" "称", litP "职务", litP "专业技术职务", litP "技术职称", litP "职位"]),
  ("department", [wsP "部" "门", litP "院系", litP "单位", litP "所在部门", litP "工作单位"]),
  ("degree", [wsP "学" "位", litP "学历", litP "最高学位", litP "最终学位"]),
  ("major", [wsP "专" "业", litP "研究方向", litP "研究领域", litP "专业方向"]),
  ("project_name", [litP "项目名称", litP "课题名称", litP "研究名称", litP "项目题目"]),
  ("project_number", [litP "项目编号", litP "项目号", litP "课题编号", litP "编号"]),
  ("funding", [wsP "经" "费", litP "资助金额", litP "项目经费", litP "资金", litP "金额"]),
  ("period", [wsP "期" "限", litP "周期", litP "起止时间", litP "时间段", litP "年限"]),
  ("date", [wsP "日" "期", litP "时间", litP "年月日", litP "申请日期"]),
  ("paper_title", [litP "论文题目", litP "论文名称", litP "文章标题", litP "论文标题", litP "题目"]),
  ("journal", [wsP "期" "刊", litP "杂志", litP "发表期刊", litP "刊物", litP "会议"]),
  ("author", [wsP "作" "者", litP "著者", litP "作者姓名", litP "第一作者"]),
  ("award_name", [litP "奖项名称", litP "获奖名称", litP "奖励名称", litP "成果名称"]),
  ("award_level", [litP "奖励等级", litP "获奖等级", litP "奖项级别", litP "等级"]),
  ("award_date", [litP "获奖时间", litP "获奖日期", litP "颁奖时间"]),
  ("description", [wsP "描" "述", litP "简介", litP "说明", litP "内容", litP "详情", litP "成果简介"]),
  ("notes", [wsP "备" "注", litP "说明", litP "其他", litP "附注", litP "注释"]),
  ("signature", [wsP "签" "名", litP "签字", litP "申请人签名", litP "负责人签名"]),
  ("year", [wsP "年" "度", litP "年份", litP "学年", litP "年"])]

/-- The type of the (extensible) pattern dictionary. -/
abbrev FieldPatterns := List (String × List Pat)

/-! ## Table model

`python-docx` tables are embedded as lists of rows of raw cell texts.
Reads apply `pyStrip` exactly where the source calls `.text.strip()`. -/
/-- A table: rows of raw cell texts. -/
abbrev Table := List (List String)

/-- Number of cells of row `r` (`len(table.rows[r].cells)`); 0 when the
row index is out of bounds. -/
def rowLen (t : Table) (r : Nat) : Nat := (t.getD r []).length

/-- Raw text of cell `(r, c)`; `""` when out of bounds. -/
def getCell (t : Table) (r c : Nat) : String := (t.getD r []).getD c ""

/-- `SmartFormDetector.set_cell_value`: replace the text of cell
`(r, c)`.  The source wraps the write in `try/except` and skips on any
error; `List.set` is likewise the identity out of bounds. -/
def set_cell_value (t : Table) (r c : Nat) (v : String) : Table :=
  t.set r ((t.getD r []).set c v)

/-! ## Field mapping model

`table_info['field_mapping']` is a Python dict.  It is embedded as an
association list in insertion order; overwriting an existing key keeps
its position and replaces its value, exactly like a Python dict. -/
/-- One entry of `field_mapping`.  A vertical/mixed entry uses
`value_cell` (the source dict has no `value_cells` key there, modelled
as `[]`); a horizontal entry uses `value_cells` (`value_cell := none`). -/
structure FieldInfo where
  label_cell : Nat × Nat
  value_cell : Option (Nat × Nat)
  value_cells : List (Nat × Nat)
  label_text : String
  type : String
deriving DecidableEq

/-- `field_mapping` in dict insertion order. -/
abbrev FieldMap := List (String × FieldInfo)

/-- Python dict lookup on the association list. -/
def lookupA : FieldMap → String → Option FieldInfo
  | [], _ => none
  | (k', v) :: m, k => if k' = k then some v else lookupA m k

/-- Python dict assignment `m[k] = v`: replace in place if `k` is
present, else append. -/
def updateAList : FieldMap → String → FieldInfo → FieldMap
  | [], k, v => [(k, v)]
  | (k', v') :: m, k, v =>
      if k' = k then (k, v) :: m else (k', v') :: updateAList m k v

/-- Lookup in the caller-supplied `data` dict (values already rendered
as strings; `fill_form` applies `str(...)` to them). -/
def lookupS : List (String × String) → String → Option String
  | [], _ => none
  | (k', v) :: m, k => if k' = k then some v else lookupS m k

/-- `field_key.split('_')[0]`: the segment before the first underscore
(the whole key when it has none). -/
def baseOf (k : String) : String := ⟨k.data.takeWhile (fun c => c ≠ '_')⟩

/-! ## The detector -/
/-- Body of `SmartFormDetector.contains_multiple_labels`: the local
`label_count`.  The `break` leaves only the innermost loop over
`patterns`, so a text matching several *different* field types is
counted once per matching field type. -/
def label_count (fp : FieldPatterns) (texts : List String) : Nat :=
  texts.foldl (fun acc text =>
    fp.foldl (fun acc2 e =>
      if e.2.any (fun pat => reSearch pat text) then acc2 + 1 else acc2) acc) 0

/-- `SmartFormDetector.contains_multiple_labels`. -/
def contains_multiple_labels (fp : FieldPatterns) (texts : List String) : Bool :=
  2 ≤ label_count fp texts

/-- First-column texts used by the classifier:
`[row.cells[0].text.strip() for row in table.rows if len(row.cells) > 0]`. -/
def first_col_texts (t : Table) : List String :=
  (t.filter (fun row => 0 < row.length)).map (fun row => pyStrip (row.getD 0 ""))

/-- `SmartFormDetector.analyze_table_structure`. -/
def analyze_table_structure (fp : FieldPatterns) (t : Table) : String :=
  if t.length = 0 then "empty"
  else if contains_multiple_labels fp (first_col_texts t) then "vertical"
  else if 0 < t.length then
    if contains_multiple_labels fp ((t.getD 0 []).map pyStrip) then "horizontal"
    else "mixed"
  else "mixed"

/-- `SmartFormDetector.is_likely_label`.  Each label indicator is a
single character, so Python's `indicator in text` is occurrence of that
character. -/
def is_likely_label (fp : FieldPatterns) (text : String) : Bool :=
  fp.any (fun e => e.2.any (fun pat => reSearch pat text)) ||
    ['：', ':', '(', '（', '/', '、'].any (fun ind => text.data.any (fun d => d = ind))

/-- `SmartFormDetector.find_value_location`. -/
def find_value_location (fp : FieldPatterns) (t : Table) (label_row label_col : Nat) :
    Nat × Nat :=
  if label_col + 1 < rowLen t label_row &&
      !is_likely_label fp (pyStrip (getCell t label_row (label_col + 1))) then
    (label_row, label_col + 1)
  else if label_row + 1 < t.length && label_col < rowLen t (label_row + 1) &&
      !is_likely_label fp (pyStrip (getCell t (label_row + 1) label_col)) then
    (label_row + 1, label_col)
  else
    (label_row, label_col)

/-- The dict literal built by `identify_vertical_fields`. -/
def mkVerticalInfo (ri ci : Nat) (lt : String) : FieldInfo :=
  { label_cell := (ri, ci), value_cell := some (ri, ci + 1),
    value_cells := [], label_text := lt, type := "vertical" }

/-- `SmartFormDetector.identify_vertical_fields`: for every row, for
every column except the last, bind each matching field type (the
pattern-level `break` makes the inner check an `any`). -/
def identify_vertical_fields (fp : FieldPatterns) (t : Table) : FieldMap :=
  (List.range t.length).foldl (fun m row_idx =>
    (List.range (rowLen t row_idx - 1)).foldl (fun m col_idx =>
      let label_text := pyStrip (getCell t row_idx col_idx)
      fp.foldl (fun m e =>
        if e.2.any (fun pat => reSearch pat label_text) then
          updateAList m e.1 (mkVerticalInfo row_idx col_idx label_text)
        else m) m) m) []

/-- The dict literal built by `identify_horizontal_fields` for column
`ci` of a table with `nrows` rows. -/
def mkHorizontalInfo (ci : Nat) (lt : String) (nrows : Nat) : FieldInfo :=
  { label_cell := (0, ci), value_cell := none,
    value_cells := (List.range' 1 (nrows - 1)).map (fun ri => (ri, ci)),
    label_text := lt, type := "horizontal" }

/-- `SmartFormDetector.identify_horizontal_fields`: tables with fewer
than two rows are skipped; otherwise each matching header of row 0
binds key `f"{field_type}_{col_idx}"` to all data-row cells of that
column.  (The `headers` list the source also accumulates carries no
behaviour and is not modelled.) -/
def identify_horizontal_fields (fp : FieldPatterns) (t : Table) : FieldMap :=
  if t.length < 2 then []
  else
    (List.range (rowLen t 0)).foldl (fun m col_idx =>
      let header_text := pyStrip (getCell t 0 col_idx)
      fp.foldl (fun m e =>
        if e.2.any (fun pat => reSearch pat header_text) then
          updateAList m (e.1 ++ "_" ++ toString col_idx)
            (mkHorizontalInfo col_idx header_text t.length)
        else m) m) []

/-- The dict literal built by `identify_mixed_fields`. -/
def mkMixedInfo (fp : FieldPatterns) (t : Table) (ri ci : Nat) (lt : String) : FieldInfo :=
  { label_cell := (ri, ci), value_cell := some (find_value_location fp t ri ci),
    value_cells := [], label_text := lt, type := "mixed" }

/-- `SmartFormDetector.identify_mixed_fields`: scan every cell, skip
empty texts, and bind key `f"{field_type}_{row_idx}_{col_idx}"` for each
matching field type.  (`if value_location:` in the source is always
true: `find_value_location` returns a nonempty tuple.) -/
def identify_mixed_fields (fp : FieldPatterns) (t : Table) : FieldMap :=
  (List.range t.length).foldl (fun m row_idx =>
    (List.range (rowLen t row_idx)).foldl (fun m col_idx =>
      let cell_text := pyStrip (getCell t row_idx col_idx)
      if cell_text = "" then m
      else
        fp.foldl (fun m e =>
          if e.2.any (fun pat => reSearch pat cell_text) then
            updateAList m (e.1 ++ "_" ++ toString row_idx ++ "_" ++ toString col_idx)
              (mkMixedInfo fp t row_idx col_idx cell_text)
          else m) m) m) []

/-- `SmartFormDetector.identify_table_fields`: strategy dispatch on the
classification (`mixed` and `empty` both fall into the mixed scan). -/
def identify_table_fields (fp : FieldPatterns) (t : Table) (structure' : String) :
    FieldMap :=
  if structure' = "vertical" then identify_vertical_fields fp t
  else if structure' = "horizontal" then identify_horizontal_fields fp t
  else identify_mixed_fields fp t

/-- The per-table record built by `analyze_document` (only the fields
the claims concern: classification and field mapping). -/
structure TableInfo where
  structure' : String
  field_mapping : FieldMap
deriving DecidableEq

/-- Analysis of one table inside `SmartFormDetector.analyze_document`. -/
def analyzeTable (fp : FieldPatterns) (t : Table) : TableInfo :=
  { structure' := analyze_table_structure fp t,
    field_mapping := identify_table_fields fp t (analyze_table_structure fp t) }

/-- `SmartFormDetector.analyze_document` over the document's tables. -/
def analyze_document (fp : FieldPatterns) (tables : List Table) : List TableInfo :=
  tables.map (analyzeTable fp)

/-- One iteration of the `fill_form` inner loop, for one
`(field_key, field_info)` entry; the accumulator is the current table
and `filled_count`. -/
def fillStep (data : List (String × String)) (acc : Table × Nat)
    (e : String × FieldInfo) : Table × Nat :=
  match lookupS data (baseOf e.1) with
  | none => acc
  | some value =>
    if e.2.type = "vertical" then
      match e.2.value_cell with
      | some rc => (set_cell_value acc.1 rc.1 rc.2 value, acc.2 + 1)
      | none => acc
    else if e.2.type = "horizontal" then
      match e.2.value_cells with
      | [] => acc
      | rc :: _ => (set_cell_value acc.1 rc.1 rc.2 value, acc.2 + 1)
    else if e.2.type = "mixed" then
      match e.2.value_cell with
      | some rc =>
        if rc = e.2.label_cell then
          (set_cell_value acc.1 rc.1 rc.2 (e.2.label_text ++ "：" ++ value), acc.2 + 1)
        else (set_cell_value acc.1 rc.1 rc.2 value, acc.2 + 1)
      | none => acc
    else acc

/-- `fill_form` restricted to one table: iterate its `field_mapping`
entries in dict order. -/
def fillTable (mapping : FieldMap) (data : List (String × String)) (t : Table) :
    Table × Nat :=
  mapping.foldl (fillStep data) (t, 0)

/-- `SmartFormDetector.fill_form`: analyze every table, fill each from
its own mapping, and return the updated tables with the total
`filled_count`. -/
def fill_form (fp : FieldPatterns) (tables : List Table)
    (data : List (String × String)) : List Table × Nat :=
  (tables.zip (analyze_document fp tables)).foldl
    (fun acc p =>
      let r := fillTable p.2.field_mapping data p.1
      (acc.1 ++ [r.1], acc.2 + r.2)) ([], 0)

/-! ## Specification-side helpers

The locator loops are re-expressed as a flat list of dictionary-update
events; `lastHit` picks the last element of a list satisfying a
predicate, which is exactly what repeated dict assignment leaves behind. -/
/-- The last element of the list satisfying `P`, if any. -/
def lastHit (P : α → Bool) : List α → Option α
  | [] => none
  | x :: xs => Option.or (lastHit P xs) (if P x then some x else none)

/-- Apply a list of dict assignments in order. -/
def applyEvents (evs : List (String × FieldInfo)) (m : FieldMap) : FieldMap :=
  evs.foldl (fun m e => updateAList m e.1 e.2) m

/-- Keys of a field mapping. -/
def mapKeys (m : FieldMap) : List String := m.map (fun e => e.1)

/-- The last `some` produced by `f` along the list. -/
def lastSome (f : α → Option β) : List α → Option β
  | [] => none
  | x :: xs => Option.or (lastSome f xs) (f x)

/-- The dict-update events one cell of a vertical scan contributes. -/
def cellVertEvents (fp : FieldPatterns) (ri ci : Nat) (txt : String) :
    List (String × FieldInfo) :=
  (fp.filter (fun e => e.2.any (fun pat => reSearch pat txt))).map
    (fun e => (e.1, mkVerticalInfo ri ci txt))

/-- All dict-update events of `identify_vertical_fields`, in loop order. -/
def vertEvents (fp : FieldPatterns) (t : Table) : List (String × FieldInfo) :=
  ((List.range t.length).map (fun ri =>
    ((List.range (rowLen t ri - 1)).map (fun ci =>
      cellVertEvents fp ri ci (pyStrip (getCell t ri ci)))).flatten)).flatten

/-- The scan of a vertical table: every row, every column except the
last, with the stripped cell text. -/
def vertScan (t : Table) : List (Nat × Nat × String) :=
  ((List.range t.length).map (fun ri =>
    (List.range (rowLen t ri - 1)).map (fun ci =>
      (ri, ci, pyStrip (getCell t ri ci))))).flatten

/-- Does text `txt` match some pattern registered for identifier `F`? -/
def matchesF (fp : FieldPatterns) (F : String) (txt : String) : Bool :=
  fp.any (fun e => e.1 = F && e.2.any (fun pat => reSearch pat txt))

/-- The dict-update events one header cell contributes in the horizontal
strategy. -/
def cellHorizEvents (fp : FieldPatterns) (ci : Nat) (txt : String) (nrows : Nat) :
    List (String × FieldInfo) :=
  (fp.filter (fun e => e.2.any (fun pat => reSearch pat txt))).map
    (fun e => (e.1 ++ "_" ++ toString ci, mkHorizontalInfo ci txt nrows))

/-- All dict-update events of `identify_horizontal_fields`. -/
def horizEvents (fp : FieldPatterns) (t : Table) : List (String × FieldInfo) :=
  if t.length < 2 then []
  else
    ((List.range (rowLen t 0)).map (fun ci =>
      cellHorizEvents fp ci (pyStrip (getCell t 0 ci)) t.length)).flatten

/-- The dict-update events one cell contributes in the mixed strategy. -/
def cellMixedEvents (fp : FieldPatterns) (t : Table) (ri ci : Nat) (txt : String) :
    List (String × FieldInfo) :=
  (fp.filter (fun e => e.2.any (fun pat => reSearch pat txt))).map
    (fun e => (e.1 ++ "_" ++ toString ri ++ "_" ++ toString ci, mkMixedInfo fp t ri ci txt))

/-- All dict-update events of `identify_mixed_fields`, in loop order. -/
def mixedEvents (fp : FieldPatterns) (t : Table) : List (String × FieldInfo) :=
  ((List.range t.length).map (fun ri =>
    ((List.range (rowLen t ri)).map (fun ci =>
      if pyStrip (getCell t ri ci) = "" then []
      else cellMixedEvents fp t ri ci (pyStrip (getCell t ri ci)))).flatten)).flatten

/-! ## Counting helpers (classifier) -/
/-- Number of field identifiers whose pattern set matches the text
(specification-side closed form for one scan position). -/
def countFieldTypes (fp : FieldPatterns) (txt : String) : Nat :=
  fp.countP (fun e => e.2.any (fun pat => reSearch pat txt))

/-- The number of positions whose text matches at least one pattern of
at least one field identifier (the count the specification describes). -/
def matchingPositionCount (fp : FieldPatterns) (texts : List String) : Nat :=
  texts.countP (fun txt => fp.any (fun e => e.2.any (fun pat => reSearch pat txt)))

/-- Specification-side reading of `is_likely_label`: the text matches
any field pattern, or contains one of the six separator glyphs. -/
def looksLikeLabel (fp : FieldPatterns) (s : String) : Prop :=
  (∃ e ∈ fp, ∃ pat ∈ e.2, reSearch pat s = true) ∨
    (∃ ind ∈ (['：', ':', '(', '（', '/', '、'] : List Char), ind ∈ s.data)

instance (fp : FieldPatterns) (s : String) : Decidable (looksLikeLabel fp s) := by
  unfold looksLikeLabel
  infer_instance

/-- Does the needle occur as a contiguous run at the start? -/
def startsWithChars : List Char → List Char → Bool
  | [], _ => true
  | _ :: _, [] => false
  | a :: as, b :: bs => a = b && startsWithChars as bs

/-- Does the needle occur contiguously anywhere in the haystack? -/
def strContainsAux (needle : List Char) : List Char → Bool
  | [] => startsWithChars needle []
  | b :: bs => startsWithChars needle (b :: bs) || strContainsAux needle bs

/-- Python's `needle in hay` substring test. -/
def strContains (hay needle : String) : Bool := strContainsAux needle.data hay.data

theorem lookupA_updateAList (m : FieldMap) (k : String) (v : FieldInfo) (k' : String) :
    lookupA (updateAList m k v) k' = if k = k' then some v else lookupA m k' := by
  induction m with
  | nil => simp [updateAList, lookupA]
  | cons e m ih =>
    obtain ⟨ek, ev⟩ := e
    simp only [updateAList]
    by_cases h : ek = k
    · subst h
      simp only [if_pos rfl, lookupA]
      by_cases h' : ek = k' <;> simp [h']
    · simp only [if_neg h, lookupA, ih]
      by_cases h' : ek = k'
      · subst h'
        rw [if_pos rfl, if_neg (fun hkk : k = ek => h hkk.symm), if_pos rfl]
      · simp [h']

theorem applyEvents_cons (e : String × FieldInfo) (evs : List (String × FieldInfo))
    (m : FieldMap) :
    applyEvents (e :: evs) m = applyEvents evs (updateAList m e.1 e.2) := rfl

theorem applyEvents_append (a b : List (String × FieldInfo)) (m : FieldMap) :
    applyEvents (a ++ b) m = applyEvents b (applyEvents a m) :=
  List.foldl_append _ _ _ _

theorem lookupA_applyEvents (evs : List (String × FieldInfo)) (m : FieldMap) (k : String) :
    lookupA (applyEvents evs m) k =
      match lastHit (fun e => e.1 = k) evs with
      | some e => some e.2
      | none => lookupA m k := by
  induction evs generalizing m with
  | nil => simp [applyEvents, lastHit]
  | cons e evs ih =>
    rw [applyEvents_cons, ih]
    cases h : lastHit (fun e => e.1 = k) evs with
    | some y => simp [lastHit, h]
    | none =>
      simp only [lastHit, h, Option.none_or, lookupA_updateAList]
      by_cases hk : e.1 = k
      · simp [hk]
      · simp [hk]

theorem mem_updateAList (m : FieldMap) (k : String) (v : FieldInfo)
    (x : String × FieldInfo) (hx : x ∈ updateAList m k v) : x ∈ m ∨ x = (k, v) := by
  induction m with
  | nil => simpa [updateAList] using hx
  | cons e m ih =>
    obtain ⟨ek, ev⟩ := e
    by_cases h : ek = k
    · subst h
      rcases (by simpa [updateAList] using hx : x = (ek, v) ∨ x ∈ m) with h1 | h1
      · exact Or.inr h1
      · exact Or.inl (List.mem_cons_of_mem _ h1)
    · rcases (by simpa [updateAList, h] using hx : x = (ek, ev) ∨ x ∈ updateAList m k v)
        with h1 | h1
      · exact Or.inl (by simp [h1])
      · rcases ih h1 with h2 | h2
        · exact Or.inl (List.mem_cons_of_mem _ h2)
        · exact Or.inr h2

theorem mem_applyEvents (evs : List (String × FieldInfo)) (m : FieldMap)
    (x : String × FieldInfo) (hx : x ∈ applyEvents evs m) : x ∈ m ∨ x ∈ evs := by
  induction evs generalizing m with
  | nil => exact Or.inl (by simpa [applyEvents] using hx)
  | cons e evs ih =>
    rw [applyEvents_cons] at hx
    rcases ih _ hx with h1 | h1
    · rcases mem_updateAList _ _ _ _ h1 with h2 | h2
      · exact Or.inl h2
      · exact Or.inr (by simp [h2])
    · exact Or.inr (List.mem_cons_of_mem _ h1)

theorem self_mem_updateAList (m : FieldMap) (k : String) (v : FieldInfo) :
    (k, v) ∈ updateAList m k v := by
  induction m with
  | nil => simp [updateAList]
  | cons e m ih =>
    obtain ⟨ek, ev⟩ := e
    by_cases h : ek = k
    · simp [updateAList, h]
    · simpa [updateAList, h] using Or.inr ih

theorem key_mem_updateAList (m : FieldMap) (k k' : String) (v v' : FieldInfo)
    (h : (k, v) ∈ m) : ∃ w, (k, w) ∈ updateAList m k' v' := by
  induction m with
  | nil => simp at h
  | cons e m ih =>
    obtain ⟨ek, ev⟩ := e
    simp only [updateAList]
    by_cases he : ek = k'
    · subst he
      simp only [if_pos rfl]
      rcases List.mem_cons.mp h with h1 | h1
      · injection h1 with hk hv
        subst hk
        exact ⟨v', by simp⟩
      · exact ⟨v, by simpa using Or.inr h1⟩
    · simp only [if_neg he]
      rcases List.mem_cons.mp h with h1 | h1
      · injection h1 with hk hv
        subst hk
        exact ⟨ev, by simp⟩
      · obtain ⟨w, hw⟩ := ih h1
        exact ⟨w, by simpa using Or.inr hw⟩

theorem key_mem_applyEvents (evs : List (String × FieldInfo)) (m : FieldMap)
    (k : String) (v : FieldInfo) (h : (k, v) ∈ m) :
    ∃ w, (k, w) ∈ applyEvents evs m := by
  induction evs generalizing m v with
  | nil => exact ⟨v, h⟩
  | cons e evs ih =>
    rw [applyEvents_cons]
    obtain ⟨w, hw⟩ := key_mem_updateAList m k e.1 v e.2 h
    exact ih _ _ hw

theorem key_event_applyEvents (evs : List (String × FieldInfo)) (k : String)
    (v : FieldInfo) :
    ∀ m, (k, v) ∈ evs → ∃ w, (k, w) ∈ applyEvents evs m := by
  induction evs with
  | nil => intro m h; simp at h
  | cons e evs ih =>
    intro m h
    rw [applyEvents_cons]
    rcases List.mem_cons.mp h with h1 | h1
    · have hk : k = e.1 := congrArg Prod.fst h1
      subst hk
      exact key_mem_applyEvents evs _ _ e.2 (self_mem_updateAList m _ e.2)
    · exact ih _ h1

theorem mapKeys_updateAList (m : FieldMap) (k : String) (v : FieldInfo) :
    mapKeys (updateAList m k v) = if k ∈ mapKeys m then mapKeys m else mapKeys m ++ [k] := by
  induction m with
  | nil => simp [updateAList, mapKeys]
  | cons e m ih =>
    obtain ⟨ek, ev⟩ := e
    by_cases h : ek = k
    · subst h
      simp [updateAList, mapKeys]
    · have hne : ¬ (k = ek) := fun hk => h hk.symm
      simp only [updateAList, if_neg h, mapKeys, List.map_cons] at *
      by_cases hmem : k ∈ m.map (fun e => e.1)
      · simp [hmem, hne, ih, mapKeys]
      · simp [hmem, hne, ih, mapKeys]

theorem nodup_mapKeys_updateAList (m : FieldMap) (k : String) (v : FieldInfo)
    (h : (mapKeys m).Nodup) : (mapKeys (updateAList m k v)).Nodup := by
  rw [mapKeys_updateAList]
  by_cases hmem : k ∈ mapKeys m
  · simpa [hmem] using h
  · simpa [hmem, List.nodup_append] using h

theorem nodup_mapKeys_applyEvents (evs : List (String × FieldInfo)) (m : FieldMap)
    (h : (mapKeys m).Nodup) : (mapKeys (applyEvents evs m)).Nodup := by
  induction evs generalizing m with
  | nil => exact h
  | cons e evs ih =>
    rw [applyEvents_cons]
    exact ih _ (nodup_mapKeys_updateAList _ _ _ h)

theorem mem_mapKeys_of_mem (m : FieldMap) (e : String × FieldInfo) (h : e ∈ m) :
    e.1 ∈ mapKeys m := List.mem_map_of_mem _ h

theorem exists_split_of_mem_nodup (m : FieldMap) (k : String) (v : FieldInfo)
    (hnd : (mapKeys m).Nodup) (hmem : (k, v) ∈ m) :
    ∃ m1 m2, m = m1 ++ (k, v) :: m2 ∧
      (∀ e ∈ m1, e.1 ≠ k) ∧ (∀ e ∈ m2, e.1 ≠ k) := by
  induction m with
  | nil => simp at hmem
  | cons x m ih =>
    obtain ⟨xk, xv⟩ := x
    have hnd0 : xk ∉ mapKeys m ∧ (mapKeys m).Nodup := by
      have : (xk :: mapKeys m).Nodup := by simpa [mapKeys] using hnd
      exact ⟨(List.nodup_cons.mp this).1, (List.nodup_cons.mp this).2⟩
    rcases List.mem_cons.mp hmem with h1 | h1
    · injection h1 with hk hv
      subst hk
      subst hv
      refine ⟨[], m, by simp, by simp, ?_⟩
      intro e he hek
      exact hnd0.1 (hek ▸ mem_mapKeys_of_mem m e he)
    · obtain ⟨m1, m2, hsplit, h2, h3⟩ := ih hnd0.2 h1
      refine ⟨(xk, xv) :: m1, m2, by simp [hsplit], ?_, h3⟩
      intro e he hek
      rcases List.mem_cons.mp he with h4 | h4
      · apply hnd0.1
        have hxk : xk = k := by rw [h4] at hek; exact hek
        exact hxk ▸ mem_mapKeys_of_mem m (k, v) h1
      · exact h2 e h4 hek

theorem lastHit_append (P : α → Bool) (a b : List α) :
    lastHit P (a ++ b) = Option.or (lastHit P b) (lastHit P a) := by
  induction a with
  | nil => simp [lastHit]
  | cons x a ih =>
    simp only [List.cons_append, lastHit, List.append_eq, ih, Option.or_assoc]

theorem lastHit_mem (P : α → Bool) (l : List α) (a : α) (h : lastHit P l = some a) :
    a ∈ l ∧ P a = true := by
  induction l with
  | nil => simp [lastHit] at h
  | cons x l ih =>
    simp only [lastHit] at h
    rcases Option.or_eq_some.mp h with h1 | ⟨h1, h2⟩
    · obtain ⟨hm, hp⟩ := ih h1
      exact ⟨List.mem_cons_of_mem _ hm, hp⟩
    · by_cases hp : P x
      · rw [if_pos hp] at h2
        obtain rfl : x = a := Option.some.inj h2
        exact ⟨List.mem_cons_self _ _, hp⟩
      · rw [if_neg hp] at h2
        cases h2

theorem lastHit_eq_none_iff (P : α → Bool) (l : List α) :
    lastHit P l = none ↔ ∀ a ∈ l, P a = false := by
  induction l with
  | nil => simp [lastHit]
  | cons x l ih =>
    simp only [lastHit, Option.or_eq_none, ih]
    constructor
    · intro ⟨h1, h2⟩ a ha
      rcases List.mem_cons.mp ha with h3 | h3
      · subst h3
        by_cases hp : P a
        · rw [if_pos hp] at h2; cases h2
        · exact Bool.eq_false_iff.mpr hp
      · exact h1 a h3
    · intro h
      refine ⟨fun a ha => h a (List.mem_cons_of_mem _ ha), ?_⟩
      rw [if_neg (by simp [h x (List.mem_cons_self _ _)])]

theorem lastHit_eq_some_of_split (P : α → Bool) (l1 l2 : List α) (a : α)
    (ha : P a = true) (h2 : ∀ b ∈ l2, P b = false) :
    lastHit P (l1 ++ a :: l2) = some a := by
  rw [lastHit_append]
  have hl2 : lastHit P (a :: l2) = some a := by
    simp only [lastHit, (lastHit_eq_none_iff P l2).mpr h2, if_pos ha, Option.none_or]
  rw [hl2]
  rfl

theorem lastHit_split_of_eq_some (P : α → Bool) (l : List α) (a : α)
    (h : lastHit P l = some a) :
    ∃ l1 l2, l = l1 ++ a :: l2 ∧ P a = true ∧ ∀ b ∈ l2, P b = false := by
  induction l with
  | nil => simp [lastHit] at h
  | cons x l ih =>
    simp only [lastHit] at h
    rcases Option.or_eq_some.mp h with h1 | ⟨h1, h2⟩
    · obtain ⟨l1, l2, hsplit, hp, hnone⟩ := ih h1
      exact ⟨x :: l1, l2, by simp [hsplit], hp, hnone⟩
    · by_cases hp : P x
      · rw [if_pos hp] at h2
        obtain rfl : x = a := Option.some.inj h2
        exact ⟨[], l, rfl, hp, (lastHit_eq_none_iff P l).mp h1⟩
      · rw [if_neg hp] at h2
        cases h2

/-- Folding a conditional dict update over the pattern dictionary equals
applying the corresponding filtered event list. -/
theorem foldl_if_update (fp : FieldPatterns) (pm : String × List Pat → Bool)
    (kf : String × List Pat → String) (vf : String × List Pat → FieldInfo) (m : FieldMap) :
    fp.foldl (fun m e => if pm e then updateAList m (kf e) (vf e) else m) m =
      applyEvents ((fp.filter pm).map (fun e => (kf e, vf e))) m := by
  induction fp generalizing m with
  | nil => rfl
  | cons e fp ih =>
    by_cases hp : pm e
    · simp only [List.foldl_cons, List.filter_cons, hp, if_pos, List.map_cons,
        applyEvents_cons, ih]
    · simp only [List.foldl_cons, List.filter_cons, hp, if_neg, Bool.false_eq_true,
        List.map_cons, ih]
      rfl

/-- Folding per-element event applications equals applying the flattened
event list. -/
theorem foldl_applyEvents_flatten (l : List α) (g : α → List (String × FieldInfo))
    (m : FieldMap) :
    l.foldl (fun m x => applyEvents (g x) m) m = applyEvents ((l.map g).flatten) m := by
  induction l generalizing m with
  | nil => rfl
  | cons x l ih =>
    simp only [List.foldl_cons, List.map_cons, List.flatten_cons, applyEvents_append, ih]

theorem lastSome_congr (f g : α → Option β) (l : List α)
    (h : ∀ x ∈ l, f x = g x) : lastSome f l = lastSome g l := by
  induction l with
  | nil => rfl
  | cons x l ih =>
    simp only [lastSome, ih (fun y hy => h y (List.mem_cons_of_mem _ hy)),
      h x (List.mem_cons_self _ _)]

theorem lastSome_map (f : α → Option β) (g : β → γ) (l : List α) :
    (lastSome f l).map g = lastSome (fun x => (f x).map g) l := by
  induction l with
  | nil => rfl
  | cons x l ih =>
    simp only [lastSome, ← ih]
    cases lastSome f l <;> simp

theorem lastHit_map_eq (P : β → Bool) (f : α → β) (l : List α) :
    lastHit P (l.map f) = (lastHit (fun x => P (f x)) l).map f := by
  induction l with
  | nil => rfl
  | cons x l ih =>
    simp only [List.map_cons, lastHit, ih]
    cases lastHit (fun x => P (f x)) l with
    | some y => simp
    | none => by_cases hx : P (f x) <;> simp [hx]

theorem lastHit_map_eq_lastSome (Q : α → Bool) (g : α → β) (l : List α) :
    (lastHit Q l).map g = lastSome (fun x => if Q x then some (g x) else none) l := by
  induction l with
  | nil => rfl
  | cons x l ih =>
    simp only [lastHit, lastSome, ← ih]
    cases lastHit Q l with
    | some y => simp
    | none => by_cases hx : Q x <;> simp [hx]

theorem lastHit_flatten_map (l : List α) (g : α → List β) (P : β → Bool)
    (f : α → Option β) (h : ∀ x ∈ l, lastHit P (g x) = f x) :
    lastHit P ((l.map g).flatten) = lastSome f l := by
  induction l with
  | nil => rfl
  | cons x l ih =>
    simp only [List.map_cons, List.flatten_cons, lastHit_append, lastSome,
      ih (fun y hy => h y (List.mem_cons_of_mem _ hy)), h x (List.mem_cons_self _ _)]

theorem identify_vertical_eq_events (fp : FieldPatterns) (t : Table) :
    identify_vertical_fields fp t = applyEvents (vertEvents fp t) [] := by
  unfold identify_vertical_fields vertEvents cellVertEvents
  simp only [foldl_if_update, foldl_applyEvents_flatten]

theorem lastHit_cellVertEvents (fp : FieldPatterns) (ri ci : Nat) (txt : String)
    (F : String) :
    lastHit (fun e => e.1 = F) (cellVertEvents fp ri ci txt) =
      if matchesF fp F txt then some (F, mkVerticalInfo ri ci txt) else none := by
  unfold cellVertEvents matchesF
  induction fp with
  | nil => simp [lastHit]
  | cons e fp ih =>
    simp only [List.filter_cons, List.any_cons]
    by_cases hp : e.2.any (fun pat => reSearch pat txt)
    · simp only [hp, if_pos, List.map_cons, lastHit, ih, Bool.and_true]
      by_cases hF : e.1 = F
      · subst hF
        by_cases hr : fp.any (fun x => x.1 = e.1 && x.2.any (fun pat => reSearch pat txt))
        · simp [hr]
        · simp [hr]
      · by_cases hr : fp.any (fun x => x.1 = F && x.2.any (fun pat => reSearch pat txt))
        · simp [hr, hF]
        · simp [hr, hF]
    · simp only [Bool.eq_false_iff.mpr hp, Bool.and_false, Bool.false_or]
      rw [if_neg (by simp [hp])]
      exact ih

/-- `lookupA` after `identify_vertical_fields` is the binding of the last
scan position whose (stripped) text matches the identifier. -/
theorem vertical_lookup_char (fp : FieldPatterns) (t : Table) (F : String) :
    lookupA (identify_vertical_fields fp t) F =
      (lastHit (fun e => matchesF fp F e.2.2) (vertScan t)).map
        (fun e => mkVerticalInfo e.1 e.2.1 e.2.2) := by
  rw [identify_vertical_eq_events, lookupA_applyEvents]
  have hev : lastHit (fun e => e.1 = F) (vertEvents fp t) =
      lastSome (fun ri =>
        lastSome (fun ci =>
          if matchesF fp F (pyStrip (getCell t ri ci)) then
            some (F, mkVerticalInfo ri ci (pyStrip (getCell t ri ci)))
          else none) (List.range (rowLen t ri - 1))) (List.range t.length) := by
    unfold vertEvents
    refine lastHit_flatten_map _ _ _ _ (fun ri _ => ?_)
    refine lastHit_flatten_map _ _ _ _ (fun ci _ => ?_)
    exact lastHit_cellVertEvents fp ri ci _ F
  have hscan : (lastHit (fun e => matchesF fp F e.2.2) (vertScan t)).map
      (fun e => ((F, mkVerticalInfo e.1 e.2.1 e.2.2) : String × FieldInfo)) =
      lastSome (fun ri =>
        lastSome (fun ci =>
          if matchesF fp F (pyStrip (getCell t ri ci)) then
            some (F, mkVerticalInfo ri ci (pyStrip (getCell t ri ci)))
          else none) (List.range (rowLen t ri - 1))) (List.range t.length) := by
    unfold vertScan
    rw [show (fun e => matchesF fp F e.2.2) = fun e : Nat × Nat × String => matchesF fp F e.2.2 from rfl]
    rw [lastHit_flatten_map _ _ _
      (fun ri => lastHit (fun e : Nat × Nat × String => matchesF fp F e.2.2)
        ((List.range (rowLen t ri - 1)).map (fun ci => (ri, ci, pyStrip (getCell t ri ci)))))
      (fun _ _ => rfl)]
    rw [lastSome_map]
    refine lastSome_congr _ _ _ (fun ri _ => ?_)
    rw [lastHit_map_eq, Option.map_map, lastHit_map_eq_lastSome]
    rfl
  rw [hev, ← hscan]
  cases lastHit (fun e => matchesF fp F e.2.2) (vertScan t) with
  | none => rfl
  | some e => rfl

theorem if_applyEvents (c : Prop) [Decidable c] (E : List (String × FieldInfo))
    (m : FieldMap) :
    (if c then m else applyEvents E m) = applyEvents (if c then [] else E) m := by
  split <;> rfl

theorem identify_horizontal_eq_events (fp : FieldPatterns) (t : Table) :
    identify_horizontal_fields fp t = applyEvents (horizEvents fp t) [] := by
  unfold identify_horizontal_fields horizEvents cellHorizEvents
  by_cases h : t.length < 2
  · simp [h, applyEvents]
  · simp only [h, if_neg, if_false]
    simp only [foldl_if_update, foldl_applyEvents_flatten]

theorem identify_mixed_eq_events (fp : FieldPatterns) (t : Table) :
    identify_mixed_fields fp t = applyEvents (mixedEvents fp t) [] := by
  unfold identify_mixed_fields mixedEvents cellMixedEvents
  simp only [foldl_if_update, if_applyEvents, foldl_applyEvents_flatten]

theorem mem_vertEvents_elim (fp : FieldPatterns) (t : Table) (x : String × FieldInfo)
    (hx : x ∈ vertEvents fp t) :
    ∃ ri ci e, ri < t.length ∧ ci < rowLen t ri - 1 ∧ e ∈ fp ∧
      e.2.any (fun pat => reSearch pat (pyStrip (getCell t ri ci))) = true ∧
      x = (e.1, mkVerticalInfo ri ci (pyStrip (getCell t ri ci))) := by
  unfold vertEvents cellVertEvents at hx
  rw [List.mem_flatten] at hx
  obtain ⟨s, hs, hx⟩ := hx
  rw [List.mem_map] at hs
  obtain ⟨ri, hri, rfl⟩ := hs
  rw [List.mem_flatten] at hx
  obtain ⟨s2, hs2, hx⟩ := hx
  rw [List.mem_map] at hs2
  obtain ⟨ci, hci, rfl⟩ := hs2
  rw [List.mem_map] at hx
  obtain ⟨e, he, rfl⟩ := hx
  rw [List.mem_filter] at he
  exact ⟨ri, ci, e, List.mem_range.mp hri, List.mem_range.mp hci, he.1, he.2, rfl⟩

theorem mem_vertEvents_intro (fp : FieldPatterns) (t : Table) (ri ci : Nat)
    (e : String × List Pat) (hri : ri < t.length) (hci : ci < rowLen t ri - 1)
    (he : e ∈ fp)
    (hpm : e.2.any (fun pat => reSearch pat (pyStrip (getCell t ri ci))) = true) :
    (e.1, mkVerticalInfo ri ci (pyStrip (getCell t ri ci))) ∈ vertEvents fp t := by
  unfold vertEvents cellVertEvents
  rw [List.mem_flatten]
  refine ⟨_, List.mem_map.mpr ⟨ri, List.mem_range.mpr hri, rfl⟩, ?_⟩
  rw [List.mem_flatten]
  refine ⟨_, List.mem_map.mpr ⟨ci, List.mem_range.mpr hci, rfl⟩, ?_⟩
  exact List.mem_map.mpr ⟨e, List.mem_filter.mpr ⟨he, hpm⟩, rfl⟩

theorem mem_horizEvents_elim (fp : FieldPatterns) (t : Table) (x : String × FieldInfo)
    (hx : x ∈ horizEvents fp t) :
    2 ≤ t.length ∧ ∃ ci e, ci < rowLen t 0 ∧ e ∈ fp ∧
      e.2.any (fun pat => reSearch pat (pyStrip (getCell t 0 ci))) = true ∧
      x = (e.1 ++ "_" ++ toString ci,
        mkHorizontalInfo ci (pyStrip (getCell t 0 ci)) t.length) := by
  unfold horizEvents cellHorizEvents at hx
  by_cases h : t.length < 2
  · rw [if_pos h] at hx
    simp at hx
  · refine ⟨Nat.le_of_not_lt h, ?_⟩
    rw [if_neg h] at hx
    rw [List.mem_flatten] at hx
    obtain ⟨s, hs, hx⟩ := hx
    rw [List.mem_map] at hs
    obtain ⟨ci, hci, rfl⟩ := hs
    rw [List.mem_map] at hx
    obtain ⟨e, he, rfl⟩ := hx
    rw [List.mem_filter] at he
    exact ⟨ci, e, List.mem_range.mp hci, he.1, he.2, rfl⟩

theorem mem_mixedEvents_elim (fp : FieldPatterns) (t : Table) (x : String × FieldInfo)
    (hx : x ∈ mixedEvents fp t) :
    ∃ ri ci e, ri < t.length ∧ ci < rowLen t ri ∧ e ∈ fp ∧
      pyStrip (getCell t ri ci) ≠ "" ∧
      e.2.any (fun pat => reSearch pat (pyStrip (getCell t ri ci))) = true ∧
      x = (e.1 ++ "_" ++ toString ri ++ "_" ++ toString ci,
        mkMixedInfo fp t ri ci (pyStrip (getCell t ri ci))) := by
  unfold mixedEvents cellMixedEvents at hx
  rw [List.mem_flatten] at hx
  obtain ⟨s, hs, hx⟩ := hx
  rw [List.mem_map] at hs
  obtain ⟨ri, hri, rfl⟩ := hs
  rw [List.mem_flatten] at hx
  obtain ⟨s2, hs2, hx⟩ := hx
  rw [List.mem_map] at hs2
  obtain ⟨ci, hci, rfl⟩ := hs2
  by_cases hemp : pyStrip (getCell t ri ci) = ""
  · rw [if_pos hemp] at hx
    simp at hx
  · rw [if_neg hemp] at hx
    rw [List.mem_map] at hx
    obtain ⟨e, he, rfl⟩ := hx
    rw [List.mem_filter] at he
    exact ⟨ri, ci, e, List.mem_range.mp hri, List.mem_range.mp hci, he.1, hemp, he.2, rfl⟩

theorem mem_mixedEvents_intro (fp : FieldPatterns) (t : Table) (ri ci : Nat)
    (e : String × List Pat) (hri : ri < t.length) (hci : ci < rowLen t ri)
    (he : e ∈ fp) (hemp : pyStrip (getCell t ri ci) ≠ "")
    (hpm : e.2.any (fun pat => reSearch pat (pyStrip (getCell t ri ci))) = true) :
    (e.1 ++ "_" ++ toString ri ++ "_" ++ toString ci,
      mkMixedInfo fp t ri ci (pyStrip (getCell t ri ci))) ∈ mixedEvents fp t := by
  unfold mixedEvents cellMixedEvents
  rw [List.mem_flatten]
  refine ⟨_, List.mem_map.mpr ⟨ri, List.mem_range.mpr hri, rfl⟩, ?_⟩
  rw [List.mem_flatten]
  refine ⟨_, List.mem_map.mpr ⟨ci, List.mem_range.mpr hci, rfl⟩, ?_⟩
  rw [if_neg hemp]
  exact List.mem_map.mpr ⟨e, List.mem_filter.mpr ⟨he, hpm⟩, rfl⟩

/-! ## Cell update lemmas -/
theorem getD_set_self (l : List α) (i : Nat) (a d : α) (h : i < l.length) :
    (l.set i a).getD i d = a := by
  induction l generalizing i with
  | nil => simp at h
  | cons x l ih =>
    cases i with
    | zero => rfl
    | succ i => exact ih i (Nat.lt_of_succ_lt_succ h)

theorem getD_set_ne (l : List α) (i : Nat) (a d : α) (j : Nat) (h : i ≠ j) :
    (l.set i a).getD j d = l.getD j d := by
  induction l generalizing i j with
  | nil => simp
  | cons x l ih =>
    cases i with
    | zero =>
      cases j with
      | zero => exact absurd rfl h
      | succ j => rfl
    | succ i =>
      cases j with
      | zero => rfl
      | succ j => exact ih i j (fun hij => h (by rw [hij]))

theorem set_oob (l : List α) (i : Nat) (a : α) (h : l.length ≤ i) : l.set i a = l := by
  induction l generalizing i with
  | nil => rfl
  | cons x l ih =>
    cases i with
    | zero => simp at h
    | succ i => simp [List.set, ih i (Nat.le_of_succ_le_succ h)]

theorem length_set_cell (t : Table) (r c : Nat) (v : String) :
    (set_cell_value t r c v).length = t.length := by
  simp [set_cell_value]

theorem rowLen_set_cell (t : Table) (r c : Nat) (v : String) (x : Nat) :
    rowLen (set_cell_value t r c v) x = rowLen t x := by
  unfold rowLen set_cell_value
  by_cases hx : r = x
  · subst hx
    by_cases hr : r < t.length
    · rw [getD_set_self t r _ [] hr]
      simp
    · rw [set_oob t r _ (Nat.le_of_not_lt hr)]
  · rw [getD_set_ne t r _ [] x hx]

theorem getCell_set_same (t : Table) (r c : Nat) (v : String)
    (hr : r < t.length) (hc : c < rowLen t r) :
    getCell (set_cell_value t r c v) r c = v := by
  unfold getCell set_cell_value
  rw [getD_set_self t r _ [] hr]
  exact getD_set_self _ c v "" hc

theorem getCell_set_other (t : Table) (r c : Nat) (v : String) (r' c' : Nat)
    (h : ¬ (r' = r ∧ c' = c)) :
    getCell (set_cell_value t r c v) r' c' = getCell t r' c' := by
  unfold getCell set_cell_value
  by_cases hr : r = r'
  · subst hr
    have hc : c ≠ c' := fun hcc => h ⟨rfl, hcc.symm⟩
    by_cases hrl : r < t.length
    · rw [getD_set_self t r _ [] hrl, getD_set_ne _ c v "" c' hc]
    · rw [set_oob t r _ (Nat.le_of_not_lt hrl)]
  · rw [getD_set_ne t r _ [] r' hr]

theorem foldl_count_if (fp : FieldPatterns) (pm : String × List Pat → Bool) (a : Nat) :
    fp.foldl (fun acc e => if pm e then acc + 1 else acc) a = a + fp.countP pm := by
  induction fp generalizing a with
  | nil => simp
  | cons e fp ih =>
    by_cases hp : pm e
    · simp only [List.foldl_cons, hp, if_pos, ih, List.countP_cons, hp]
      omega
    · simp only [List.foldl_cons, hp, if_neg, Bool.false_eq_true, ih, List.countP_cons]
      simp [hp]

theorem foldl_add_sum (g : String → Nat) (texts : List String) (a : Nat) :
    texts.foldl (fun acc t => acc + g t) a = a + (texts.map g).sum := by
  induction texts generalizing a with
  | nil => simp
  | cons txt texts ih =>
    simp only [List.foldl_cons, ih, List.map_cons, List.sum_cons]
    omega

theorem label_count_eq_sum (fp : FieldPatterns) (texts : List String) :
    label_count fp texts = (texts.map (countFieldTypes fp)).sum := by
  unfold label_count countFieldTypes
  simp only [foldl_count_if]
  rw [foldl_add_sum]
  omega

/-! ## Dispatch and classifier inversion -/
theorem analyzeTable_structure (fp : FieldPatterns) (t : Table) :
    (analyzeTable fp t).structure' = analyze_table_structure fp t := rfl

theorem analyzeTable_mapping_vertical (fp : FieldPatterns) (t : Table)
    (h : analyze_table_structure fp t = "vertical") :
    (analyzeTable fp t).field_mapping = identify_vertical_fields fp t := by
  unfold analyzeTable identify_table_fields
  rw [h]
  simp

theorem analyzeTable_mapping_horizontal (fp : FieldPatterns) (t : Table)
    (h : analyze_table_structure fp t = "horizontal") :
    (analyzeTable fp t).field_mapping = identify_horizontal_fields fp t := by
  unfold analyzeTable identify_table_fields
  rw [h]
  simp

theorem analyzeTable_mapping_mixed (fp : FieldPatterns) (t : Table)
    (h : analyze_table_structure fp t ≠ "vertical")
    (h2 : analyze_table_structure fp t ≠ "horizontal") :
    (analyzeTable fp t).field_mapping = identify_mixed_fields fp t := by
  unfold analyzeTable identify_table_fields
  rw [if_neg h, if_neg h2]

theorem vertical_inversion (fp : FieldPatterns) (t : Table)
    (h : analyze_table_structure fp t = "vertical") :
    t.length ≠ 0 ∧ contains_multiple_labels fp (first_col_texts t) = true := by
  unfold analyze_table_structure at h
  by_cases h0 : t.length = 0
  · rw [if_pos h0] at h
    exact absurd h (by decide)
  · rw [if_neg h0] at h
    by_cases h1 : contains_multiple_labels fp (first_col_texts t)
    · exact ⟨h0, h1⟩
    · exfalso
      rw [if_neg (by simpa using h1)] at h
      by_cases h2 : 0 < t.length
      · rw [if_pos h2] at h
        by_cases h3 : contains_multiple_labels fp ((t.getD 0 []).map pyStrip)
        · rw [if_pos (by simpa using h3)] at h
          exact absurd h (by decide)
        · rw [if_neg (by simpa using h3)] at h
          exact absurd h (by decide)
      · rw [if_neg h2] at h
        exact absurd h (by decide)

theorem vertical_intro (fp : FieldPatterns) (t : Table) (h0 : t.length ≠ 0)
    (h1 : contains_multiple_labels fp (first_col_texts t) = true) :
    analyze_table_structure fp t = "vertical" := by
  unfold analyze_table_structure
  rw [if_neg h0, if_pos (by simpa using h1)]

/-! ## `baseOf` and strip helpers -/
theorem baseOf_no_underscore (F : String) (h : '_' ∉ F.data) : baseOf F = F := by
  unfold baseOf
  have : F.data.takeWhile (fun c => c ≠ '_') = F.data := by
    apply List.takeWhile_eq_self_iff.mpr
    intro c hc
    simp only [ne_eq, decide_eq_true_eq]
    exact fun hceq => h (hceq ▸ hc)
  rw [this]

theorem lookupS_single (F v b : String) :
    lookupS [(F, v)] b = if F = b then some v else none := rfl

/-! ## Fill helpers -/
theorem foldl_fillStep_skip (m : FieldMap) (data : List (String × String))
    (acc : Table × Nat) (h : ∀ e ∈ m, lookupS data (baseOf e.1) = none) :
    m.foldl (fillStep data) acc = acc := by
  induction m generalizing acc with
  | nil => rfl
  | cons e m ih =>
    rw [List.foldl_cons]
    have hstep : fillStep data acc e = acc := by
      unfold fillStep
      rw [h e (List.mem_cons_self _ _)]
    rw [hstep]
    exact ih acc (fun x hx => h x (List.mem_cons_of_mem _ hx))

theorem fillTable_skip (m : FieldMap) (data : List (String × String)) (t : Table)
    (h : ∀ e ∈ m, lookupS data (baseOf e.1) = none) :
    fillTable m data t = (t, 0) :=
  foldl_fillStep_skip m data (t, 0) h

theorem foldl_fillStep_horizontal_frame (m : FieldMap) (data : List (String × String))
    (t : Table) (n r c : Nat)
    (htype : ∀ e ∈ m, e.2.type = "horizontal")
    (hhead : ∀ e ∈ m, lookupS data (baseOf e.1) ≠ none →
      e.2.value_cells.head? ≠ some (r, c)) :
    getCell (m.foldl (fillStep data) (t, n)).1 r c = getCell t r c := by
  induction m generalizing t n with
  | nil => rfl
  | cons e m ih
 =>
    rw [List.foldl_cons]
    cases hl : lookupS data (baseOf e.1) with
    | none =>
      have hstep : fillStep data (t, n) e = (t, n) := by
        unfold fillStep
        rw [hl]
      rw [hstep]
      exact ih t n (fun x hx => htype x (List.mem_cons_of_mem _ hx))
        (fun x hx => hhead x (List.mem_cons_of_mem _ hx))
    | some v =>
      have het : e.2.type = "horizontal" := htype e (List.mem_cons_self _ _)
      cases hvc : e.2.value_cells with
      | nil =>
        have hstep : fillStep data (t, n) e = (t, n) := by
          unfold fillStep
          rw [hl, het, hvc]
          rfl
        rw [hstep]
        exact ih t n (fun x hx => htype x (List.mem_cons_of_mem _ hx))
          (fun x hx => hhead x (List.mem_cons_of_mem _ hx))
      | cons rc rest =>
        have hstep : fillStep data (t, n) e = (set_cell_value t rc.1 rc.2 v, n + 1) := by
          unfold fillStep
          rw [hl, het, hvc]
          rfl
        rw [hstep]
        rw [ih _ _ (fun x hx => htype x (List.mem_cons_of_mem _ hx))
          (fun x hx => hhead x (List.mem_cons_of_mem _ hx))]
        apply getCell_set_other
        intro ⟨hr, hc⟩
        exact hhead e (List.mem_cons_self _ _) (by rw [hl]; exact fun hh => by cases hh)
          (by rw [hvc]; simp [hr, hc])

theorem fillTable_single (m : FieldMap) (F v : String) (info : FieldInfo)
    (t : Table) (rc : Nat × Nat)
    (hnd : (mapKeys m).Nodup) (hmem : (F, info) ∈ m) (hbase : baseOf F = F)
    (hothers : ∀ e ∈ m, e.1 ≠ F → lookupS [(F, v)] (baseOf e.1) = none)
    (htype : info.type = "vertical") (hvc : info.value_cell = some rc) :
    fillTable m [(F, v)] t = (set_cell_value t rc.1 rc.2 v, 1) := by
  obtain ⟨m1, m2, hsplit, h1, h2⟩ := exists_split_of_mem_nodup m F info hnd hmem
  subst hsplit
  unfold fillTable
  rw [List.foldl_append, List.foldl_cons]
  rw [foldl_fillStep_skip m1 _ _
    (fun e he => hothers e (List.mem_append_left _ he) (h1 e he))]
  have hstep : fillStep [(F, v)] (t, 0) (F, info) = (set_cell_value t rc.1 rc.2 v, 1) := by
    have hlk : lookupS [(F, v)] (baseOf F) = some v := by
      rw [hbase, lookupS_single, if_pos rfl]
    simp only [fillStep]
    rw [hlk, htype, hvc]
    rfl
  rw [hstep]
  exact foldl_fillStep_skip m2 _ _
    (fun e he => hothers e (List.mem_append_right _ (List.mem_cons_of_mem _ he)) (h2 e he))

/-! ## Stability of the classifier and the vertical scan under a fill -/
theorem first_col_texts_congr (t t' : Table) (hlen : t.length = t'.length)
    (h : ∀ i, i < t.length → rowLen t i = rowLen t' i ∧ getCell t i 0 = getCell t' i 0) :
    first_col_texts t = first_col_texts t' := by
  induction t generalizing t' with
  | nil =>
    cases t' with
    | nil => rfl
    | cons _ _ => simp at hlen
  | cons row rest ih =>
    cases t' with
    | nil => simp at hlen
    | cons row' rest' =>
      have h0 := h 0 (by simp)
      have hrowlen : row.length = row'.length := h0.1
      have hrowget : row.getD 0 "" = row'.getD 0 "" := h0.2
      have hrest : first_col_texts rest = first_col_texts rest' := by
        refine ih rest' (by simpa using hlen) (fun i hi => ?_)
        exact h (i + 1) (by simpa using hi)
      unfold first_col_texts at hrest ⊢
      simp only [List.filter_cons]
      by_cases hp : 0 < row.length
      · rw [if_pos (by simpa using hp), if_pos (by simpa [← hrowlen] using hp)]
        simp only [List.map_cons, hrowget, hrest]
      · rw [if_neg (by simpa using hp), if_neg (by simpa [← hrowlen] using hp)]
        exact hrest

theorem first_col_set_ne_zero (t : Table) (a b : Nat) (v : String) (hb : b ≠ 0) :
    first_col_texts (set_cell_value t a b v) = first_col_texts t := by
  refine first_col_texts_congr _ _ (length_set_cell t a b v) (fun i _ => ?_)
  refine ⟨rowLen_set_cell t a b v i, ?_⟩
  exact getCell_set_other t a b v i 0 (fun hh => hb hh.2.symm)

theorem vertScan_set_last (t : Table) (a b : Nat) (v : String)
    (hb : rowLen t a - 1 ≤ b) :
    vertScan (set_cell_value t a b v) = vertScan t := by
  unfold vertScan
  rw [length_set_cell]
  apply congrArg List.flatten
  apply List.map_congr_left
  intro ri _
  rw [rowLen_set_cell]
  apply List.map_congr_left
  intro ci hci
  have hci' : ci < rowLen t ri - 1 := List.mem_range.mp hci
  rw [getCell_set_other]
  intro hh
  obtain ⟨h1, h2⟩ := hh
  subst h1
  subst h2
  omega

theorem mem_vertScan_elim (t : Table) (e : Nat × Nat × String) (he : e ∈ vertScan t) :
    e.1 < t.length ∧ e.2.1 < rowLen t e.1 - 1 ∧
      e.2.2 = pyStrip (getCell t e.1 e.2.1) := by
  unfold vertScan at he
  rw [List.mem_flatten] at he
  obtain ⟨s, hs, he⟩ := he
  rw [List.mem_map] at hs
  obtain ⟨ri, hri, rfl⟩ := hs
  rw [List.mem_map] at he
  obtain ⟨ci, hci, rfl⟩ := he
  exact ⟨List.mem_range.mp hri, List.mem_range.mp hci, rfl⟩

theorem lookupA_mem (m : FieldMap) (k : String) (info : FieldInfo)
    (h : lookupA m k = some info) : (k, info) ∈ m := by
  induction m with
  | nil => simp [lookupA] at h
  | cons e m ih =>
    obtain ⟨ek, ev⟩ := e
    by_cases hk : ek = k
    · subst hk
      rw [lookupA, if_pos rfl] at h
      exact List.mem_cons.mpr (Or.inl (by rw [Option.some.inj h]))
    · rw [lookupA, if_neg hk] at h
      exact List.mem_cons_of_mem _ (ih h)

theorem nodup_keys_identify_vertical (fp : FieldPatterns) (t : Table) :
    (mapKeys (identify_vertical_fields fp t)).Nodup := by
  rw [identify_vertical_eq_events]
  exact nodup_mapKeys_applyEvents _ [] (by simp [mapKeys])

theorem is_likely_label_iff (fp : FieldPatterns) (s : String) :
    is_likely_label fp s = true ↔ looksLikeLabel fp s := by
  unfold is_likely_label looksLikeLabel
  simp [List.any_eq_true]

theorem startsWithChars_refl (l : List Char) : startsWithChars l l = true := by
  induction l with
  | nil => rfl
  | cons a l ih => simp [startsWithChars, ih]

theorem strContains_self (v : String) : strContains v v = true := by
  unfold strContains
  cases hv : v.data with
  | nil => rfl
  | cons b bs => simp [strContainsAux, startsWithChars_refl]

theorem matchingPositionCount_le (fp : FieldPatterns) (texts : List String) :
    matchingPositionCount fp texts ≤ label_count fp texts := by
  rw [label_count_eq_sum]
  unfold matchingPositionCount countFieldTypes
  induction texts with
  | nil => simp
  | cons txt texts ih =>
    simp only [List.countP_cons, List.map_cons, List.sum_cons]
    by_cases h : fp.any (fun e => e.2.any (fun pat => reSearch pat txt)) = true
    · have h1 : 0 < fp.countP (fun e => e.2.any (fun pat => reSearch pat txt)) := by
        obtain ⟨e, he, hpe⟩ := List.any_eq_true.mp h
        exact List.countP_pos_iff.mpr ⟨e, he, hpe⟩
      rw [if_pos h]
      omega
    · rw [if_neg h]
      omega

theorem fill_form_noop_aux (fp : FieldPatterns) (data : List (String × String)) :
    ∀ (tables : List Table) (acc : List Table) (n : Nat),
      (∀ ti ∈ analyze_document fp tables, ∀ e ∈ ti.field_mapping,
        lookupS data (baseOf e.1) = none) →
      (tables.zip (analyze_document fp tables)).foldl
        (fun acc p =>
          let r := fillTable p.2.field_mapping data p.1
          (acc.1 ++ [r.1], acc.2 + r.2)) (acc, n) = (acc ++ tables, n) := by
  intro tables
  induction tables with
  | nil => intro acc n _; simp [analyze_document]
  | cons t ts ih =>
    intro acc n h
    have ht : fillTable (analyzeTable fp t).field_mapping data t = (t, 0) :=
      fillTable_skip _ _ _ (h (analyzeTable fp t) (by simp [analyze_document]))
    simp only [analyze_document, List.map_cons, List.zip_cons_cons, List.foldl_cons, ht,
      Nat.add_zero]
    rw [show (analyze_document fp ts) = ts.map (analyzeTable fp) from rfl] at ih
    rw [ih (acc ++ [t]) n
      (fun ti hti => h ti (List.mem_cons_of_mem _ (by simpa [analyze_document] using hti)))]
    simp

/-- C1 (corrected): the `label_count` the classifier computes is the sum,
over the scan positions, of the number of distinct field identifiers the
text matches (the pattern-level `break` leaves the field-type loop
running), and it is at least — not equal to — the number of positions
with at least one match. -/
theorem claim_C1_label_count (fp : FieldPatterns) (texts : List String) :
    label_count fp texts = (texts.map (countFieldTypes fp)).sum ∧
      matchingPositionCount fp texts ≤ label_count fp texts :=
  ⟨label_count_eq_sum fp texts, matchingPositionCount_le fp texts⟩

/-- C1 counterexample: the single text `项目题目` matches both
`project_name` and `paper_title`, so the computed count is 2 while only
1 position has a match — the claimed equality fails. -/
theorem claim_C1_counterexample :
    label_count field_patterns ["项目题目"] = 2 ∧
      matchingPositionCount field_patterns ["项目题目"] = 1 := by decide

/-- C2 (corrected): a 1-row, 1-column table is never classified
`horizontal`, but it is classified `vertical` — not `mixed` — whenever
its single stripped text matches at least two field identifiers. -/
theorem claim_C2_one_cell (fp : FieldPatterns) (s : String) :
    analyze_table_structure fp [[s]] =
      (if 2 ≤ countFieldTypes fp (pyStrip s) then "vertical" else "mixed") := by
  have hcnt1 : label_count fp (first_col_texts [[s]]) = countFieldTypes fp (pyStrip s) := by
    rw [show first_col_texts [[s]] = [pyStrip s] from rfl, label_count_eq_sum]
    simp
  have hcnt2 : label_count fp ((([[s]] : Table).getD 0 []).map pyStrip) =
      countFieldTypes fp (pyStrip s) := by
    rw [show (([[s]] : Table).getD 0 []).map pyStrip = [pyStrip s] from rfl,
      label_count_eq_sum]
    simp
  unfold analyze_table_structure contains_multiple_labels
  by_cases h : 2 ≤ countFieldTypes fp (pyStrip s)
  · rw [if_neg (by simp), if_pos (by rw [hcnt1]; simpa using h), if_pos h]
  · rw [if_neg (by simp), if_neg (by rw [hcnt1]; simpa using h), if_pos (by simp),
      if_neg (by rw [hcnt2]; simpa using h), if_neg h]

/-- C2 counterexample: the 1x1 table whose only cell is `项目题目` is
classified `vertical`, not `mixed`. -/
theorem claim_C2_counterexample :
    analyze_table_structure field_patterns [["项目题目"]] = "vertical" := by decide

/-- C4 (corrected): there is no first-identifier tie-break — every field
identifier whose pattern set matches a scanned cell produces a binding:
in the vertical strategy its bare identifier is a key of the mapping,
and in the mixed strategy its position-suffixed key is present. -/
theorem claim_C4_all_matching_bound (fp : FieldPatterns) (t : Table) (ri ci : Nat)
    (e : String × List Pat) (he : e ∈ fp) :
    (ri < t.length → ci < rowLen t ri - 1 →
      e.2.any (fun pat => reSearch pat (pyStrip (getCell t ri ci))) = true →
      ∃ info, (e.1, info) ∈ identify_vertical_fields fp t) ∧
    (ri < t.length → ci < rowLen t ri →
      pyStrip (getCell t ri ci) ≠ "" →
      e.2.any (fun pat => reSearch pat (pyStrip (getCell t ri ci))) = true →
      ∃ info, (e.1 ++ "_" ++ toString ri ++ "_" ++ toString ci, info) ∈
        identify_mixed_fields fp t) := by
  constructor
  · intro hri hci hpm
    rw [identify_vertical_eq_events]
    exact key_event_applyEvents _ _ _ []
      (mem_vertEvents_intro fp t ri ci e hri hci he hpm)
  · intro hri hci hemp hpm
    rw [identify_mixed_eq_events]
    exact key_event_applyEvents _ _ _ []
      (mem_mixedEvents_intro fp t ri ci e hri hci he hemp hpm)

/-- C4 counterexample: in a vertical table whose cell `项目题目` matches
both `project_name` (first in dict order) and `paper_title`, *both*
identifiers are bound to that cell — the later one is not dropped. -/
theorem claim_C4_counterexample :
    lookupA (identify_vertical_fields field_patterns [["项目题目", "x"]])
        "project_name" = some (mkVerticalInfo 0 0 "项目题目") ∧
      lookupA (identify_vertical_fields field_patterns [["项目题目", "x"]])
        "paper_title" = some (mkVerticalInfo 0 0 "项目题目") := by decide

/-- C4 witness: both parts of the amended claim at the concrete cell
`项目题目` for the non-first matching identifier `paper_title`. -/
theorem claim_C4_witness :
    (∃ info, ("paper_title", info) ∈
      identify_vertical_fields field_patterns [["项目题目", "x"]]) ∧
    (∃ info, ("paper_title_0_0", info) ∈
      identify_mixed_fields field_patterns [["项目题目", "x"]]) := by
  have h := claim_C4_all_matching_bound field_patterns [["项目题目", "x"]] 0 0
    ("paper_title",
      [litP "论文题目", litP "论文名称", litP "文章标题", litP "论文标题", litP "题目"])
    (by decide)
  exact ⟨h.1 (by decide) (by decide) (by decide),
    h.2 (by decide) (by decide) (by decide) (by decide)⟩

/-- C5 (confirmed): vertical locator — scanning every row and every
column except the last of each row (`vertScan`), a matching cell binds
the bare field identifier to the value cell in the next column, and the
binding that remains is the one of the last matching scan position. -/
theorem claim_C5_vertical_locator (fp : FieldPatterns) (t : Table) (F : String) :
    lookupA (identify_vertical_fields fp t) F =
      (lastHit (fun e => matchesF fp F e.2.2) (vertScan t)).map
        (fun e => mkVerticalInfo e.1 e.2.1 e.2.2) :=
  vertical_lookup_char fp t F

/-- C6 (confirmed): mixed value-location search — right cell if it
exists and is not label-like, else the cell below under the same
conditions, else the label cell itself; label-like is exactly a field
pattern match or one of the six separator glyphs, and out-of-bounds
probes simply fall through. -/
theorem claim_C6_find_value_location (fp : FieldPatterns) (t : Table) (lr lc : Nat) :
    find_value_location fp t lr lc =
      if lc + 1 < rowLen t lr ∧
          ¬ looksLikeLabel fp (pyStrip (getCell t lr (lc + 1))) then
        (lr, lc + 1)
      else if lr + 1 < t.length ∧ lc < rowLen t (lr + 1) ∧
          ¬ looksLikeLabel fp (pyStrip (getCell t (lr + 1) lc)) then
        (lr + 1, lc)
      else (lr, lc) := by
  unfold find_value_location
  by_cases h1 : lc + 1 < rowLen t lr <;>
    by_cases h2 : is_likely_label fp (pyStrip (getCell t lr (lc + 1))) = true <;>
    by_cases h3 : lr + 1 < t.length <;>
    by_cases h4 : lc < rowLen t (lr + 1) <;>
    by_cases h5 : is_likely_label fp (pyStrip (getCell t (lr + 1) lc)) = true <;>
    simp [h1, h2, h3, h4, h5, ← is_likely_label_iff]

/-- C7 (confirmed): filling a horizontal table writes only the first
value cell (first data row, header's column) of each requested field;
every other cell — including the remaining data rows of the column — is
unchanged. -/
theorem claim_C7_horizontal_fill_frame (fp : FieldPatterns) (t : Table)
    (d : List (String × String)) (r c : Nat)
    (hs : analyze_table_structure fp t = "horizontal")
    (hhead : ∀ e ∈ (analyzeTable fp t).field_mapping,
      lookupS d (baseOf e.1) ≠ none → e.2.value_cells.head? ≠ some (r, c)) :
    getCell (fillTable (analyzeTable fp t).field_mapping d t).1 r c = getCell t r c := by
  rw [analyzeTable_mapping_horizontal fp t hs] at hhead ⊢
  unfold fillTable
  apply foldl_fillStep_horizontal_frame
  · intro e he
    rw [identify_horizontal_eq_events] at he
    rcases mem_applyEvents _ _ _ he with h1 | h1
    · simp at h1
    · obtain ⟨_, ci, e', hci, _, _, heq⟩ := mem_horizEvents_elim fp t _ h1
      have he2 : e.2 = mkHorizontalInfo ci (pyStrip (getCell t 0 ci)) t.length :=
        congrArg Prod.snd heq
      rw [he2]
      rfl
  · exact hhead

/-- C7 witness: scenario B — header row `姓名/电话/邮箱` with two empty
data rows; `fill({name: 王五})` leaves `(2,0)` unchanged and writes only
`(1,0)`. -/
theorem claim_C7_witness :
    getCell (fillTable (analyzeTable field_patterns
        [["姓名", "电话", "邮箱"], ["", "", ""], ["", "", ""]]).field_mapping
        [("name", "王五")] [["姓名", "电话", "邮箱"], ["", "", ""], ["", "", ""]]).1 2 0 =
      getCell [["姓名", "电话", "邮箱"], ["", "", ""], ["", "", ""]] 2 0 ∧
    getCell (fillTable (analyzeTable field_patterns
        [["姓名", "电话", "邮箱"], ["", "", ""], ["", "", ""]]).field_mapping
        [("name", "王五")] [["姓名", "电话", "邮箱"], ["", "", ""], ["", "", ""]]).1 1 0 =
      "王五" :=
  ⟨claim_C7_horizontal_fill_frame field_patterns _ _ 2 0 (by decide) (by decide),
    by decide⟩

/-- C8 (confirmed): when no requested key matches any located field's
base identifier, `fill_form` leaves every cell of every table unchanged
and reports zero fields filled. -/
theorem claim_C8_unknown_fill_noop (fp : FieldPatterns) (tables : List Table)
    (data : List (String × String))
    (h : ∀ ti ∈ analyze_document fp tables, ∀ e ∈ ti.field_mapping,
      lookupS data (baseOf e.1) = none) :
    fill_form fp tables data = (tables, 0) := by
  unfold fill_form
  simpa using fill_form_noop_aux fp data tables [] 0 h

/-- C8 witness: scenario D — `fill({unknown_field: x})` on a vertical
table is a no-op with count 0. -/
theorem claim_C8_witness :
    fill_form field_patterns [[["姓名", "x"], ["电话", ""]]] [("unknown_field", "x")] =
      ([[["姓名", "x"], ["电话", ""]]], 0) :=
  claim_C8_unknown_fill_noop field_patterns _ _ (by decide)

/-- C9 (confirmed): every field location any of the three strategies
produces has its label cell inside the table's bounds. -/
theorem claim_C9_label_bounds (fp : FieldPatterns) (t : Table) (k : String)
    (info : FieldInfo) (h : (k, info) ∈ (analyzeTable fp t).field_mapping) :
    info.label_cell.1 < t.length ∧
      info.label_cell.2 < rowLen t info.label_cell.1 := by
  unfold analyzeTable identify_table_fields at h
  by_cases hv : analyze_table_structure fp t = "vertical"
  · rw [if_pos hv, identify_vertical_eq_events] at h
    rcases mem_applyEvents _ _ _ h with h1 | h1
    · simp at h1
    · obtain ⟨ri, ci, e, hri, hci, _, _, heq⟩ := mem_vertEvents_elim fp t _ h1
      have h2 : info = mkVerticalInfo ri ci (pyStrip (getCell t ri ci)) :=
        congrArg Prod.snd heq
      rw [h2]
      exact ⟨hri, show ci < rowLen t ri by omega⟩
  · by_cases hh : analyze_table_structure fp t = "horizontal"
    · rw [if_neg hv, if_pos hh, identify_horizontal_eq_events] at h
      rcases mem_applyEvents _ _ _ h with h1 | h1
      · simp at h1
      · obtain ⟨hlen, ci, e, hci, _, _, heq⟩ := mem_horizEvents_elim fp t _ h1
        have h2 : info = mkHorizontalInfo ci (pyStrip (getCell t 0 ci)) t.length :=
          congrArg Prod.snd heq
        rw [h2]
        exact ⟨show (0 : Nat) < t.length by omega, hci⟩
    · rw [if_neg hv, if_neg hh, identify_mixed_eq_events] at h
      rcases mem_applyEvents _ _ _ h with h1 | h1
      · simp at h1
      · obtain ⟨ri, ci, e, hri, hci, _, _, _, heq⟩ := mem_mixedEvents_elim fp t _ h1
        have h2 : info = mkMixedInfo fp t ri ci (pyStrip (getCell t ri ci)) :=
          congrArg Prod.snd heq
        rw [h2]
        exact ⟨hri, hci⟩

/-- C9 witness: the located `name` field of a concrete vertical table
has its label cell in bounds. -/
theorem claim_C9_witness :
    (mkVerticalInfo 0 0 "姓名").label_cell.1 <
        ([["姓名", "x"], ["电话", "y"]] : Table).length ∧
      (mkVerticalInfo 0 0 "姓名").label_cell.2 <
        rowLen [["姓名", "x"], ["电话", "y"]] (mkVerticalInfo 0 0 "姓名").label_cell.1 :=
  claim_C9_label_bounds field_patterns [["姓名", "x"], ["电话", "y"]] "name"
    (mkVerticalInfo 0 0 "姓名") (by decide)

/-- C10 (confirmed): a table classified `horizontal` with fewer than two
rows yields an empty field mapping. -/
theorem claim_C10_horizontal_short (fp : FieldPatterns) (t : Table)
    (h : analyze_table_structure fp t = "horizontal") (hlen : t.length < 2) :
    (analyzeTable fp t).field_mapping = [] := by
  rw [analyzeTable_mapping_horizontal fp t h]
  unfold identify_horizontal_fields
  rw [if_pos hlen]

/-- C10 witness: the one-row table `姓名/电话` is classified
`horizontal` (its headers match field patterns) yet no field is bound. -/
theorem claim_C10_witness :
    (analyzeTable field_patterns [["姓名", "电话"]]).field_mapping = [] :=
  claim_C10_horizontal_short field_patterns [["姓名", "电话"]] (by decide) (by decide)

/-- C3 counterexample: `birth_date` is located in a vertical table, but
`fill({birth_date: 1990})` fills nothing — `fill_form` matches on
`field_key.split('_')[0] = "birth"`, which is not a key of the data —
so re-locating and reading the value cell yields `x`, which does not
contain `1990`. -/
theorem claim_C3_counterexample :
    (analyzeTable field_patterns [["出生年月", "x"], ["电话", "y"]]).structure' =
        "vertical" ∧
      lookupA (analyzeTable field_patterns
          [["出生年月", "x"], ["电话", "y"]]).field_mapping "birth_date" =
        some (mkVerticalInfo 0 0 "出生年月") ∧
      fillTable (analyzeTable field_patterns
          [["出生年月", "x"], ["电话", "y"]]).field_mapping
          [("birth_date", "1990")] [["出生年月", "x"], ["电话", "y"]] =
        ([["出生年月", "x"], ["电话", "y"]], 0) ∧
      strContains (getCell [["出生年月", "x"], ["电话", "y"]] 0 1) "1990" = false := by
  decide

/-- C3 (amended): fill/locate round-trip for a vertical table, for a
located field identifier with no underscore whose base collides with no
other located key, and whose value cell is the last cell of its row:
for every value `v`, `fill({F: v})` writes exactly the value cell, the
table re-classifies `vertical`, re-locating binds `F` to the same
cells, and the value cell's text is `v` (so it contains `v`). -/
theorem claim_C3_round_trip (fp : FieldPatterns) (t : Table) (F v : String)
    (r c : Nat) (info : FieldInfo)
    (h1 : analyze_table_structure fp t = "vertical")
    (h2 : lookupA (analyzeTable fp t).field_mapping F = some info)
    (h3 : info.label_cell = (r, c))
    (h4 : rowLen t r = c + 2)
    (h5 : '_' ∉ F.data)
    (h6 : ∀ e ∈ (analyzeTable fp t).field_mapping, baseOf e.1 = F → e.1 = F) :
    analyze_table_structure fp
        (fillTable (analyzeTable fp t).field_mapping [(F, v)] t).1 = "vertical" ∧
      lookupA (analyzeTable fp
          (fillTable (analyzeTable fp t).field_mapping [(F, v)] t).1).field_mapping F =
        some info ∧
      info.value_cell = some (r, c + 1) ∧
      getCell (fillTable (analyzeTable fp t).field_mapping [(F, v)] t).1 r (c + 1) = v ∧
      strContains
        (getCell (fillTable (analyzeTable fp t).field_mapping [(F, v)] t).1 r (c + 1))
        v = true := by
  rw [analyzeTable_mapping_vertical fp t h1] at h2 h6 ⊢
  have hchar := vertical_lookup_char fp t F
  rw [h2] at hchar
  cases hlast : lastHit (fun e => matchesF fp F e.2.2) (vertScan t) with
  | none =>
    rw [hlast] at hchar
    cases hchar
  | some e0 =>
    rw [hlast] at hchar
    have hinfo : info = mkVerticalInfo e0.1 e0.2.1 e0.2.2 := Option.some.inj hchar
    have h3' : (e0.1, e0.2.1) = (r, c) := by rw [hinfo] at h3; exact h3
    have hr : e0.1 = r := congrArg Prod.fst h3'
    have hc : e0.2.1 = c := congrArg Prod.snd h3'
    obtain ⟨hscanmem, hmatch⟩ := lastHit_mem _ _ _ hlast
    obtain ⟨hrlen, hclen, htxt⟩ := mem_vertScan_elim t e0 hscanmem
    have hfill : fillTable (identify_vertical_fields fp t) [(F, v)] t =
        (set_cell_value t r (c + 1) v, 1) := by
      apply fillTable_single _ F v info _ (r, c + 1)
      · exact nodup_keys_identify_vertical fp t
      · exact lookupA_mem _ _ _ h2
      · exact baseOf_no_underscore F h5
      · intro e he hne
        rw [lookupS_single, if_neg (fun hFb => hne (h6 e he hFb.symm))]
      · rw [hinfo]
        rfl
      · rw [hinfo]
        show some (e0.1, e0.2.1 + 1) = some (r, c + 1)
        rw [hr, hc]
    rw [hfill]
    have hb : rowLen t r - 1 ≤ c + 1 := by omega
    have hscan' : vertScan (set_cell_value t r (c + 1) v) = vertScan t :=
      vertScan_set_last t r (c + 1) v hb
    have hs' : analyze_table_structure fp (set_cell_value t r (c + 1) v) = "vertical" := by
      obtain ⟨hlen0, hcontains⟩ := vertical_inversion fp t h1
      apply vertical_intro
      · rw [length_set_cell]
        exact hlen0
      · rw [first_col_set_ne_zero t r (c + 1) v (by omega)]
        exact hcontains
    have hget : getCell (set_cell_value t r (c + 1) v) r (c + 1) = v := by
      apply getCell_set_same
      · rw [← hr]
        exact hrlen
      · omega
    refine ⟨hs', ?_, ?_, hget, by rw [hget]; exact strContains_self v⟩
    · rw [analyzeTable_mapping_vertical fp _ hs', vertical_lookup_char fp _ F, hscan',
        hlast, hinfo]
      rfl
    · rw [hinfo]
      show some (e0.1, e0.2.1 + 1) = some (r, c + 1)
      rw [hr, hc]

/-- C3 witness: the amended round-trip on the concrete vertical table
`姓名/电话`, filling `name` with `李四`. -/
theorem claim_C3_witness :
    analyze_table_structure field_patterns
        (fillTable (analyzeTable field_patterns
          [["姓名", "x"], ["电话", "y"]]).field_mapping
          [("name", "李四")] [["姓名", "x"], ["电话", "y"]]).1 = "vertical" ∧
      lookupA (analyzeTable field_patterns
          (fillTable (analyzeTable field_patterns
            [["姓名", "x"], ["电话", "y"]]).field_mapping
            [("name", "李四")] [["姓名", "x"], ["电话", "y"]]).1).field_mapping "name" =
        some (mkVerticalInfo 0 0 "姓名") ∧
      (mkVerticalInfo 0 0 "姓名").value_cell = some (0, 0 + 1) ∧
      getCell (fillTable (analyzeTable field_patterns
          [["姓名", "x"], ["电话", "y"]]).field_mapping
          [("name", "李四")] [["姓名", "x"], ["电话", "y"]]).1 0 (0 + 1) = "李四" ∧
      strContains
        (getCell (fillTable (analyzeTable field_patterns
          [["姓名", "x"], ["电话", "y"]]).field_mapping
          [("name", "李四")] [["姓名", "x"], ["电话", "y"]]).1 0 (0 + 1)) "李四" = true :=
  claim_C3_round_trip field_patterns [["姓名", "x"], ["电话", "y"]] "name" "李四" 0 0
    (mkVerticalInfo 0 0 "姓名") (by decide) (by decide) (by decide) (by decide)
    (by decide) (by decide)
